import Mathlib

/-
Shallow embedding of pkg/converters/middleware/configuration_snippet.go from
nikhilsbhat/ingress-traefik-converter, together with proofs about the
documented behavior of the snippet translation engine.

Strings are modelled as Lean strings; the Go string helpers used by the file
(strings.Contains, strings.Fields, strings.TrimSpace, strings.Split, ...) are
re-implemented over the underlying character lists, restricted to ASCII where
Go consults Unicode tables (every marker, separator and directive keyword the
converter matches is ASCII).
-/

/-! ### Go string primitives -/

/-- Character code 34, the double-quote character. -/
def dquoteChar : Char := Char.ofNat 34

/-- Character code 39, the single-quote character. -/
def squoteChar : Char := Char.ofNat 39

/-- ASCII whitespace as consulted by Go strings.TrimSpace and strings.Fields
(unicode.IsSpace restricted to ASCII). -/
def isGoSpace (c : Char) : Bool :=
  c = ' ' || c = '\t' || c = '\n' || c = '\r' || c = Char.ofNat 11 || c = Char.ofNat 12

/-- Whitespace class of Go regexp (tab, newline, form feed, carriage return
and space). -/
def isReSpace (c : Char) : Bool :=
  c = ' ' || c = '\t' || c = '\n' || c = '\r' || c = Char.ofNat 12

/-- ASCII lowering of one character, modelling strings.ToLower on the ASCII
range (all matched markers are ASCII). -/
def lowerChar (c : Char) : Char :=
  if 'A' ≤ c ∧ c ≤ 'Z' then Char.ofNat (c.toNat + 32) else c

/-- Embeds strings.ToLower (ASCII range). -/
def toLowerStr (s : String) : String := ⟨s.toList.map lowerChar⟩

/-- Embeds strings.TrimSpace. -/
def trimSpace (s : String) : String :=
  ⟨((s.toList.dropWhile isGoSpace).reverse.dropWhile isGoSpace).reverse⟩

/-- Helper: does the first list start with the second one. -/
def startsWithList : List Char → List Char → Bool
  | _, [] => true
  | [], _ :: _ => false
  | c :: cs, p :: ps => if c = p then startsWithList cs ps else false

/-- Helper: does the first list contain the second as a contiguous sublist. -/
def containsList : List Char → List Char → Bool
  | l, p =>
    if startsWithList l p then true
    else
      match l with
      | [] => false
      | _ :: rest => containsList rest p

/-- Embeds strings.Contains. -/
def goContains (s sub : String) : Bool := containsList s.toList sub.toList

/-- Embeds strings.HasPrefix. -/
def goHasPre (s p : String) : Bool := startsWithList s.toList p.toList

/-- Embeds strings.TrimSuffix. -/
def goTrimSuffix (s suf : String) : String :=
  if startsWithList s.toList.reverse suf.toList.reverse then
    ⟨s.toList.take (s.toList.length - suf.toList.length)⟩
  else s

/-- Embeds strings.Trim with a one-character cutset. -/
def goTrimChar (s : String) (c : Char) : String :=
  ⟨((s.toList.dropWhile (fun x => x = c)).reverse.dropWhile (fun x => x = c)).reverse⟩

/-- Helper for goFields: accumulates the current word (reversed) while
splitting on whitespace runs, as strings.Fields does. -/
def fieldsAux : List Char → List Char → List String
  | acc, [] => if acc.isEmpty then [] else [(⟨acc.reverse⟩ : String)]
  | acc, c :: rest =>
    if isGoSpace c then
      if acc.isEmpty then fieldsAux [] rest
      else (⟨acc.reverse⟩ : String) :: fieldsAux [] rest
    else fieldsAux (c :: acc) rest

/-- Embeds strings.Fields: splits on maximal whitespace runs. -/
def goFields (s : String) : List String := fieldsAux [] s.toList

/-- Helper for goSplitChar: splits a character list at every separator. -/
def splitCharAux (sep : Char) : List Char → List Char → List String
  | acc, [] => [(⟨acc.reverse⟩ : String)]
  | acc, c :: rest =>
    if c = sep then (⟨acc.reverse⟩ : String) :: splitCharAux sep [] rest
    else splitCharAux sep (c :: acc) rest

/-- Embeds strings.Split with a one-character separator. -/
def goSplitChar (sep : Char) (s : String) : List String := splitCharAux sep [] s.toList

/-- Embeds strings.Join with separator " ". -/
def joinSpace : List String → String
  | [] => ""
  | x :: xs => xs.foldl (fun a b => a ++ " " ++ b) x

/-- Splits a list before the first occurrence of a character: the part
strictly before it and the part strictly after it. Renders the
strings.Index-based slicing of the Go code. -/
def breakAtChar (q : Char) : List Char → Option (List Char × List Char)
  | [] => none
  | c :: rest =>
    if c = q then some ([], rest)
    else (breakAtChar q rest).map (fun p => (c :: p.1, p.2))

/-! ### Data model -/

/-- Headers payload of an emitted middleware: the fields of the Traefik
dynamic.Headers object that this converter sets, with the Go zero values as
defaults. -/
structure Headers where
  customRequestHeaders : List (String × String) := []
  customResponseHeaders : List (String × String) := []
  accessControlAllowMethods : List String := []
  accessControlAllowHeaders : List String := []
  accessControlAllowOriginListRegex : List String := []
  accessControlMaxAge : Int := 0
  accessControlAllowCredentials : Bool := false
deriving DecidableEq

/-- Middleware output object: name, namespace and headers payload (the
constant TypeMeta fields of the Go object carry no information and are
elided). -/
structure Middleware where
  name : String
  nspace : String
  headers : Headers
deriving DecidableEq

/-- Modelled from the spec: the shared conversion result of package configs
(whose source is not under src/), holding the ordered middleware sequence and
the ordered warning sequence. -/
structure ConvResult where
  middlewares : List Middleware
  warnings : List String
deriving DecidableEq

/-- Modelled from the spec: the conversion context of package configs (whose
source is not under src/): the annotation map and the naming context (base
resource name and namespace) used to derive output object names. The logger
has no observable effect here and is omitted. -/
structure Context where
  annotations : String → Option String
  name : String
  nspace : String

/-- Embeds the corsConfig struct. -/
structure corsConfig where
  originRegex : String
  allowHeaders : List String
  allowMethods : List String
  allowCreds : Option Bool
  maxAge : Int
deriving DecidableEq

/-- Embeds the unsupportedDirective struct. -/
structure unsupportedDirective where
  enterprise : Bool
  message : String
deriving DecidableEq

/-- Embeds the unsupported directive table. -/
def unsupported : List (String × unsupportedDirective) :=
  [ ("gzip", ⟨false, "gzip is only configurable via middleware in Traefik and was ignored"⟩),
    ("gzip_comp_level", ⟨false, "gzip_comp_level is not configurable in Traefik"⟩),
    ("gzip_types", ⟨false, "gzip_types is not configurable in Traefik"⟩),
    ("proxy_buffer_size", ⟨false, "proxy_buffer_size is not supported in Traefik"⟩),
    ("proxy_cache", ⟨true, "proxy_cache is not supported in Traefik OSS"⟩) ]

/-- Embeds the Go map lookup on the unsupported table. -/
def unsupportedLookup (k : String) : Option unsupportedDirective :=
  (unsupported.find? (fun p => p.1 = k)).map (fun p => p.2)

/-- Embeds warnUnsupported: the appended message, with the enterprise note
when flagged. -/
def unsupportedMsg (d : unsupportedDirective) : String :=
  if d.enterprise then
    d.message ++ ". Traefik Enterprise provides an alternative, but it cannot be auto-converted."
  else d.message

/-- Modelled from the spec: mwName (whose source is not under src/) derives
the output object name as the base resource name, a dash and the fixed
suffix. -/
def mwName (ctx : Context) (suffixName : String) : String :=
  ctx.name ++ "-" ++ suffixName

/-- Embeds newHeadersMiddleware. -/
def newHeadersMiddleware (ctx : Context) (nameArg : String) (headers : Headers) : Middleware :=
  { name := mwName ctx nameArg, nspace := ctx.nspace, headers := headers }

/-- Models assignment into a Go string map, rendered as an association list
with unique keys: an existing key is overwritten in place, a new key is
appended. -/
def mapInsert (m : List (String × String)) (k v : String) : List (String × String) :=
  if m.any (fun p => p.1 = k) then
    m.map (fun p => if p.1 = k then (k, v) else p)
  else m ++ [(k, v)]

/-! ### Source embedding: helpers of configuration_snippet.go -/

/-- Embeds splitLines. -/
def splitLines (s : String) : List String :=
  (goSplitChar '\n' s).filterMap (fun l =>
    let t := trimSpace l
    if t = "" then none else some t)

/-- Embeds directive: the first whitespace-delimited token of a line. -/
def directive (line : String) : String :=
  match goFields line with
  | [] => ""
  | f :: _ => f

/-- Embeds parseProxySetHeader. -/
def parseProxySetHeader (line : String) : String × String :=
  match goFields (goTrimSuffix line ";") with
  | _ :: k :: v :: rest => (goTrimChar k dquoteChar, joinSpace (v :: rest))
  | _ => ("", "")

/-- Embeds parseResponseHeader. The first/last-quote indices of the Go code
are rendered by splitting at the first quote and, from the right, at the last
quote; the interior is split at its first colon (strings.SplitN with limit
2). -/
def parseResponseHeader (line : String) : Option (String × String) :=
  let l := goTrimSuffix (trimSpace line) ";"
  if goHasPre l "more_set_headers" then
    match breakAtChar dquoteChar l.toList with
    | none => none
    | some (_, afterFirst) =>
      match breakAtChar dquoteChar afterFirst.reverse with
      | none => none
      | some (_, revInterior) =>
        match breakAtChar ':' revInterior.reverse with
        | none => none
        | some (k, v) => some (trimSpace ⟨k⟩, trimSpace ⟨v⟩)
  else if goHasPre l "add_header" then
    match goFields l with
    | _ :: k :: v :: rest =>
      some (goTrimChar k dquoteChar, goTrimChar (joinSpace (v :: rest)) dquoteChar)
    | _ => none
  else none

/-! ### Source embedding: generic snippet handling -/

/-- Accumulator of the line loop of convertGenericSnippet: the request header
map, the response header map, and the collected warnings. -/
structure GenAcc where
  req : List (String × String)
  resp : List (String × String)
  warns : List String
deriving DecidableEq

/-- Embeds one iteration of the line loop of convertGenericSnippet. -/
def genericStep (acc : GenAcc) (raw : String) : GenAcc :=
  let line := trimSpace raw
  if line = "" then acc
  else
    let d := directive (toLowerStr line)
    if d = "add_header" ∨ d = "more_set_headers" then
      match parseResponseHeader line with
      | some (k, v) => { acc with resp := mapInsert acc.resp k v }
      | none =>
        { acc with warns := acc.warns ++ ["failed to parse header directive: " ++ line] }
    else if d = "proxy_set_header" then
      let kv := parseProxySetHeader line
      let acc1 :=
        if kv.1 ≠ "" then { acc with req := mapInsert acc.req kv.1 kv.2 } else acc
      if goContains kv.2 "$" then
        { acc1 with warns := acc1.warns ++
            ["proxy_set_header uses NGINX variables which are not evaluated by Traefik"] }
      else acc1
    else if d = "gzip" ∨ d = "gzip_comp_level" ∨ d = "gzip_types" ∨
        d = "proxy_buffer_size" ∨ d = "proxy_cache" then
      match unsupportedLookup d with
      | some u => { acc with warns := acc.warns ++ [unsupportedMsg u] }
      | none => acc
    else
      { acc with warns := acc.warns ++
          ["unsupported directive in configuration-snippet was ignored: " ++ line] }

/-- Embeds convertGenericSnippet. -/
def convertGenericSnippet (ctx : Context) (lines : List String) (res : ConvResult) : ConvResult :=
  let acc := lines.foldl genericStep ⟨[], [], []⟩
  let res1 := { res with warnings := res.warnings ++ acc.warns }
  if acc.req = [] ∧ acc.resp = [] then res1
  else
    { res1 with middlewares := res1.middlewares ++
        [newHeadersMiddleware ctx "snippet-headers"
          { customRequestHeaders := acc.req, customResponseHeaders := acc.resp }] }

/-! ### Source embedding: conditional CORS detection -/

/-- Line predicate of the detector: the lowered line contains the
origin-conditional guard marker. -/
def hasOriginMarker (raw : String) : Bool :=
  goContains (toLowerStr raw) "if ($http_origin"

/-- Line predicate of the detector: the lowered line contains the
allow-methods header name. -/
def hasMethodsMarker (raw : String) : Bool :=
  goContains (toLowerStr raw) "access-control-allow-methods"

/-- Line predicate of the detector: a disqualifying marker (rewrite,
proxy-pass, fastcgi, embedded scripting, or a bare variable-assignment
directive). -/
def hasDisqualifier (raw : String) : Bool :=
  let l := toLowerStr raw
  goContains l "rewrite" || goContains l "proxy_pass" || goContains l "fastcgi" ||
    goContains l "lua_" || goContains l "set "

/-- Embeds the line loop of isConditionalCORSSnippet with its two accumulator
flags and the early false return on a disqualifying line. -/
def condGo : List String → Bool → Bool → Bool
  | [], hasOriginIf, hasMethods => hasOriginIf && hasMethods
  | raw :: rest, hasOriginIf, hasMethods =>
    let o1 := hasOriginIf || hasOriginMarker raw
    let m1 := hasMethods || hasMethodsMarker raw
    if hasDisqualifier raw then false else condGo rest o1 m1

/-- Embeds isConditionalCORSSnippet. -/
def isConditionalCORSSnippet (lines : List String) : Bool :=
  condGo lines false false

/-! ### Source embedding: the origin regex

The pattern of originIfRe is "backslash-dollar http_origin, whitespace+, tilde
star, whitespace+, open paren, lazy capture of one-or-more non-newline
characters, close paren, whitespace*, close paren". For this pattern the Go
(leftmost-first) match semantics are deterministic: each whitespace-plus run
before a non-space literal consumes the maximal run, the lazy capture takes
the shortest non-empty prefix after which the tail matches, and the search
returns the capture of the match with the leftmost starting position. -/

/-- Consumes the exact literal at the head of the input. -/
def dropLit : List Char → List Char → Option (List Char)
  | [], cs => some cs
  | _ :: _, [] => none
  | l :: ls, c :: cs => if c = l then dropLit ls cs else none

/-- Consumes one-or-more regexp whitespace characters (maximal run). -/
def dropSpaces1 : List Char → Option (List Char)
  | [] => none
  | c :: rest => if isReSpace c then some (rest.dropWhile isReSpace) else none

/-- Decides whether the pattern tail, a close paren, optional whitespace and a
second close paren, matches at this position. -/
def tailMatch : List Char → Bool
  | c :: rest =>
    if c = ')' then
      match rest.dropWhile isReSpace with
      | c2 :: _ => c2 = ')'
      | [] => false
    else false
  | [] => false

/-- Lazy capture: the shortest non-empty run of non-newline characters after
which the pattern tail matches; the accumulator holds the capture so far,
reversed. -/
def lazyCapture : List Char → List Char → Option (List Char)
  | _, [] => none
  | acc, c :: rest =>
    if c = '\n' then none
    else if tailMatch rest then some ((c :: acc).reverse)
    else lazyCapture (c :: acc) rest

/-- Matches the origin pattern anchored at the current position and yields the
capture group. -/
def originMatchAt (cs : List Char) : Option (List Char) :=
  match dropLit "$http_origin".toList cs with
  | none => none
  | some r1 =>
    match dropSpaces1 r1 with
    | none => none
    | some r2 =>
      match dropLit "~*".toList r2 with
      | none => none
      | some r3 =>
        match dropSpaces1 r3 with
        | none => none
        | some r4 =>
          match dropLit "(".toList r4 with
          | none => none
          | some r5 => lazyCapture [] r5

/-- Leftmost search for the origin pattern over one line. -/
def originSearch : List Char → Option (List Char)
  | [] => originMatchAt []
  | c :: rest =>
    match originMatchAt (c :: rest) with
    | some cap => some cap
    | none => originSearch rest

/-- Embeds extractOriginRegex: the first line on which originIfRe matches
yields its capture group. -/
def extractOriginRegex (lines : List String) : Option String :=
  lines.findSome? (fun l => (originSearch l.toList).map (fun cs => (⟨cs⟩ : String)))

/-! ### Source embedding: CORS value extraction -/

/-- Embeds the Index-based collection loop of extractQuotedHeaderValue for one
quote character as a single left-to-right scan: with cur = none the scan looks
for an opening quote, with cur = some seg (the reversed segment read so far)
it looks for the closing quote; an unclosed trailing segment is discarded, as
in the Go loop. -/
def collectQuotedAux (q : Char) (vals : List String) (cur : Option (List Char)) :
    List Char → List String
  | [] => vals
  | c :: rest =>
    match cur with
    | none =>
      if c = q then collectQuotedAux q vals (some []) rest
      else collectQuotedAux q vals none rest
    | some seg =>
      if c = q then collectQuotedAux q (vals ++ [(⟨seg.reverse⟩ : String)]) none rest
      else collectQuotedAux q vals (some (c :: seg)) rest

/-- Embeds extractQuotedHeaderValue: collect the double-quoted segments, then
the single-quoted segments, and return the last collected value (empty string
when none). -/
def extractQuotedHeaderValue (line : String) : String :=
  let values :=
    collectQuotedAux squoteChar (collectQuotedAux dquoteChar [] none line.toList)
      none line.toList
  match values.getLast? with
  | none => ""
  | some v => v

/-- Embeds splitCSV. -/
def splitCSV (v : String) : List String :=
  (goSplitChar ',' v).filterMap (fun p =>
    let s := trimSpace p
    if s = "" then none else some s)

/-! ### Source embedding: integer extraction (strconv.ParseInt semantics) -/

/-- Embeds the digit loop of strconv.ParseUint for base 10 and 64 bits: an
invalid character is a syntax error (none); when the accumulator reaches the
cutoff, or the next value exceeds the maximum, the loop stops early and
returns the maximum unsigned value, leaving the rest of the input unexamined,
exactly as the Go loop does on a range error. -/
def parseUintVal : Nat → List Char → Option Nat
  | n, [] => some n
  | n, c :: rest =>
    if c.isDigit then
      if 1844674407370955162 ≤ n then some 18446744073709551615
      else
        let n1 := n * 10 + (c.toNat - 48)
        if 18446744073709551615 < n1 then some 18446744073709551615
        else parseUintVal n1 rest
    else none

/-- Splits an optional leading sign, as strconv.ParseInt does; true means
negative. -/
def signSplit : List Char → Bool × List Char
  | [] => (false, [])
  | c :: cs =>
    if c = '+' then (false, cs)
    else if c = '-' then (true, cs)
    else (false, c :: cs)

/-- Embeds the value returned by strconv.ParseInt(s, 10, 64) with its error
discarded, as extractInt does: 0 on syntax errors, the clamped 64-bit extreme
on range errors, the exact value otherwise. A lone sign makes the Go code feed
the empty string to ParseUint, which reports a syntax error with value 0 and
ParseInt returns 0; here parseUintVal on the empty digit list yields 0, and
the clamp of 0 is 0, the same value. -/
def goParseInt64 (s : String) : Int :=
  match s.toList with
  | [] => 0
  | c :: cs0 =>
    let p := signSplit (c :: cs0)
    match parseUintVal 0 p.2 with
    | none => 0
    | some un =>
      if p.1 = false ∧ 9223372036854775808 ≤ un then 9223372036854775807
      else if p.1 = true ∧ 9223372036854775808 < un then -9223372036854775808
      else if p.1 then -(un : Int) else (un : Int)

/-- Embeds extractInt. -/
def extractInt (line : String) : Int :=
  match (goFields line).getLast? with
  | none => 0
  | some tok => goParseInt64 (goTrimSuffix tok ";")

/-! ### Source embedding: CORS extraction and emission -/

/-- Embeds one iteration of the extraction loop of parseConditionalCORSSnippet
(a Go switch whose first matching case wins). -/
def corsScanLine (cfg : corsConfig) (raw : String) : corsConfig :=
  let line := trimSpace raw
  let lower := toLowerStr line
  if goContains lower "access-control-allow-headers" then
    { cfg with allowHeaders := splitCSV (extractQuotedHeaderValue line) }
  else if goContains lower "access-control-allow-methods" then
    { cfg with allowMethods := splitCSV (extractQuotedHeaderValue line) }
  else if goContains lower "access-control-allow-credentials" then
    let v := toLowerStr (extractQuotedHeaderValue line)
    if v = "true" ∨ v = "false" then { cfg with allowCreds := some (v = "true") }
    else cfg
  else if goContains lower "access-control-max-age" then
    if 0 < extractInt line then { cfg with maxAge := extractInt line } else cfg
  else cfg

/-- Default method list applied when no allow-methods value was found. -/
def defaultMethods : List String := ["GET", "POST", "PUT", "DELETE", "OPTIONS"]

/-- Embeds parseConditionalCORSSnippet; the Go error return is rendered as
none (the only error path is the missing origin regex). -/
def parseConditionalCORSSnippet (lines : List String) : Option corsConfig :=
  match extractOriginRegex lines with
  | none => none
  | some origin =>
    let cfg := lines.foldl corsScanLine ⟨origin, [], [], none, 0⟩
    if cfg.allowMethods = [] then some { cfg with allowMethods := defaultMethods }
    else some cfg

/-- Embeds the headers object built by emitCORSMiddleware; the credentials
field is written only when explicitly set, which over the Go zero value false
is the same as defaulting the optional boolean to false. -/
def corsHeaders (cfg : corsConfig) : Headers :=
  { accessControlAllowMethods := cfg.allowMethods,
    accessControlAllowHeaders := cfg.allowHeaders,
    accessControlAllowOriginListRegex := [cfg.originRegex],
    accessControlMaxAge := cfg.maxAge,
    accessControlAllowCredentials := cfg.allowCreds.getD false }

/-- Warning text of the partial parse case of the CORS emitter. -/
def partialMsg : String :=
  "conditional CORS snippet was partially parsed; verify generated middleware"

/-- Warning text always appended by the CORS emitter. -/
def convertedMsg : String :=
  "conditional NGINX CORS logic was converted to Traefik CORS middleware"

/-- Embeds emitCORSMiddleware. -/
def emitCORSMiddleware (ctx : Context) (cfg : corsConfig) (res : ConvResult) : ConvResult :=
  let res1 := { res with middlewares :=
    res.middlewares ++ [newHeadersMiddleware ctx "cors" (corsHeaders cfg)] }
  let res2 :=
    if cfg.allowHeaders = [] ∨ cfg.allowMethods = [] then
      { res1 with warnings := res1.warnings ++ [partialMsg] }
    else res1
  { res2 with warnings := res2.warnings ++ [convertedMsg] }

/-- Annotation key consulted by the converter. -/
def snippetKey : String := "nginx.ingress.kubernetes.io/configuration-snippet"

/-- Embeds ConfigurationSnippet, the converter entry point, rendered in
state-passing style over the shared conversion result (the Go code mutates
ctx.Result through a pointer). -/
def ConfigurationSnippet (ctx : Context) (res : ConvResult) : ConvResult :=
  match ctx.annotations snippetKey with
  | none => res
  | some snippet =>
    let lines := splitLines snippet
    if lines = [] then res
    else if isConditionalCORSSnippet lines then
      match parseConditionalCORSSnippet lines with
      | none =>
        { res with warnings :=
          res.warnings ++ ["failed to parse conditional CORS snippet; skipped"] }
      | some cfg => emitCORSMiddleware ctx cfg res
    else convertGenericSnippet ctx lines res

/-! ### Shape lemmas: the converter only appends to the shared result -/

/-- Warnings appended by one call to the CORS emitter. -/
def corsWarnings (cfg : corsConfig) : List String :=
  (if cfg.allowHeaders = [] ∨ cfg.allowMethods = [] then [partialMsg] else []) ++ [convertedMsg]

theorem emitCORS_shape (ctx : Context) (cfg : corsConfig) (res : ConvResult) :
    emitCORSMiddleware ctx cfg res =
      ⟨res.middlewares ++ [newHeadersMiddleware ctx "cors" (corsHeaders cfg)],
       res.warnings ++ corsWarnings cfg⟩ := by
  by_cases h : cfg.allowHeaders = [] ∨ cfg.allowMethods = [] <;>
    simp [emitCORSMiddleware, corsWarnings, h]

/-- Accumulator produced by the generic line loop. -/
def genericAcc (lines : List String) : GenAcc :=
  lines.foldl genericStep ⟨[], [], []⟩

/-- Middlewares appended by one call to the generic pass. -/
def genericDelta (ctx : Context) (lines : List String) : List Middleware :=
  if (genericAcc lines).req = [] ∧ (genericAcc lines).resp = [] then []
  else [newHeadersMiddleware ctx "snippet-headers"
    { customRequestHeaders := (genericAcc lines).req,
      customResponseHeaders := (genericAcc lines).resp }]

theorem convertGeneric_shape (ctx : Context) (lines : List String) (res : ConvResult) :
    convertGenericSnippet ctx lines res =
      ⟨res.middlewares ++ genericDelta ctx lines,
       res.warnings ++ (genericAcc lines).warns⟩ := by
  by_cases h : (genericAcc lines).req = [] ∧ (genericAcc lines).resp = [] <;>
    · simp only [convertGenericSnippet, genericDelta, genericAcc] at h ⊢
      simp [h]

/-- Middlewares appended by one call to ConfigurationSnippet, read off the run
on a fresh result. -/
def snippetMwDelta (ctx : Context) : List Middleware :=
  (ConfigurationSnippet ctx ⟨[], []⟩).middlewares

/-- Warnings appended by one call to ConfigurationSnippet, read off the run on
a fresh result. -/
def snippetWarnDelta (ctx : Context) : List String :=
  (ConfigurationSnippet ctx ⟨[], []⟩).warnings

theorem configSnippet_shape (ctx : Context) (res : ConvResult) :
    ConfigurationSnippet ctx res =
      ⟨res.middlewares ++ snippetMwDelta ctx, res.warnings ++ snippetWarnDelta ctx⟩ := by
  unfold snippetMwDelta snippetWarnDelta ConfigurationSnippet
  cases hK : ctx.annotations snippetKey with
  | none => simp
  | some snippet =>
    simp only
    by_cases hL : splitLines snippet = []
    · simp [hL]
    · by_cases hC : isConditionalCORSSnippet (splitLines snippet) = true
      · cases hP : parseConditionalCORSSnippet (splitLines snippet) with
        | none => simp [hL, hC, hP]
        | some cfg => simp [hL, hC, hP, emitCORS_shape]
      · simp [hL, hC, convertGeneric_shape]

theorem snippetMwDelta_length (ctx : Context) : (snippetMwDelta ctx).length ≤ 1 := by
  unfold snippetMwDelta ConfigurationSnippet
  cases hK : ctx.annotations snippetKey with
  | none => simp
  | some snippet =>
    simp only
    by_cases hL : splitLines snippet = []
    · simp [hL]
    · by_cases hC : isConditionalCORSSnippet (splitLines snippet) = true
      · cases hP : parseConditionalCORSSnippet (splitLines snippet) with
        | none => simp [hL, hC, hP]
        | some cfg => simp [hL, hC, hP, emitCORS_shape]
      · simp only [Bool.not_eq_true] at hC
        by_cases hE : (genericAcc (splitLines snippet)).req = [] ∧
            (genericAcc (splitLines snippet)).resp = [] <;>
          simp [hL, hC, convertGeneric_shape, genericDelta, hE]

/-- C9. For every snippet, naming context and initial state of the shared
result, ConfigurationSnippet only appends: the converted result is the initial
middleware sequence extended by a suffix and the initial warning sequence
extended by a suffix, so everything present before the call is still present,
unmodified and in its original position; the modelled result has no other
field. -/
theorem configurationSnippet_append_only (ctx : Context) (res : ConvResult) :
    ∃ ms ws, ConfigurationSnippet ctx res =
      ⟨res.middlewares ++ ms, res.warnings ++ ws⟩ :=
  ⟨snippetMwDelta ctx, snippetWarnDelta ctx, configSnippet_shape ctx res⟩

/-- C2. One call to ConfigurationSnippet appends at most one middleware to the
shared result; in particular it never appends both a snippet-headers
middleware and a CORS middleware for the same snippet. -/
theorem configurationSnippet_appends_at_most_one_middleware (ctx : Context) (res : ConvResult) :
    ∃ t, (ConfigurationSnippet ctx res).middlewares = res.middlewares ++ t ∧ t.length ≤ 1 :=
  ⟨snippetMwDelta ctx, by rw [configSnippet_shape], snippetMwDelta_length ctx⟩

/-- C8. The outcome of ConfigurationSnippet is a deterministic function of the
snippet and naming context alone: the middleware and warning suffixes appended
to any two initial results (in particular two fresh ones) coincide — there is
no hidden global state. -/
theorem configurationSnippet_deterministic (ctx : Context) (r1 r2 : ConvResult) :
    (ConfigurationSnippet ctx r1).warnings.drop r1.warnings.length =
      (ConfigurationSnippet ctx r2).warnings.drop r2.warnings.length ∧
    (ConfigurationSnippet ctx r1).middlewares.drop r1.middlewares.length =
      (ConfigurationSnippet ctx r2).middlewares.drop r2.middlewares.length := by
  rw [configSnippet_shape ctx r1, configSnippet_shape ctx r2]
  constructor <;> simp [List.drop_left]

/-! ### C1: the conditional-CORS detector -/

theorem any_perm {l1 l2 : List String} (p : String → Bool) (h : l1.Perm l2) :
    l1.any p = l2.any p := by
  cases h1 : l1.any p with
  | true =>
    obtain ⟨x, hm, hp⟩ := List.any_eq_true.mp h1
    exact (List.any_eq_true.mpr ⟨x, h.mem_iff.mp hm, hp⟩).symm
  | false =>
    cases h2 : l2.any p with
    | true =>
      obtain ⟨x, hm, hp⟩ := List.any_eq_true.mp h2
      rw [← h1]
      exact List.any_eq_true.mpr ⟨x, h.mem_iff.mpr hm, hp⟩
    | false => rfl

theorem all_perm {l1 l2 : List String} (p : String → Bool) (h : l1.Perm l2) :
    l1.all p = l2.all p := by
  cases h1 : l1.all p with
  | true =>
    refine (List.all_eq_true.mpr ?_).symm
    intro x hx
    exact List.all_eq_true.mp h1 x (h.mem_iff.mpr hx)
  | false =>
    cases h2 : l2.all p with
    | true =>
      rw [← h1]
      refine List.all_eq_true.mpr ?_
      intro x hx
      exact List.all_eq_true.mp h2 x (h.mem_iff.mp hx)
    | false => rfl

theorem condGo_eq (ls : List String) : ∀ o m : Bool,
    condGo ls o m =
      ((ls.all fun x => !hasDisqualifier x) &&
        ((o || ls.any hasOriginMarker) && (m || ls.any hasMethodsMarker))) := by
  induction ls with
  | nil => intro o m; simp [condGo]
  | cons x xs ih =>
    intro o m
    simp only [condGo]
    cases hx : hasDisqualifier x
    · simp [hx, ih, List.any_cons, List.all_cons, Bool.or_assoc]
    · simp [hx, List.all_cons]

/-- C1. The detector returns true exactly when some line carries the
origin-conditional guard marker, some line carries the allow-methods header
name, and no line carries a disqualifying marker; consequently the result is
invariant under every permutation of the line order. -/
theorem corsDetector_iff_and_permutation_invariant (l1 l2 : List String) (hperm : l1.Perm l2) :
    (isConditionalCORSSnippet l1 = true ↔
      ((∃ x ∈ l1, hasOriginMarker x = true) ∧ (∃ x ∈ l1, hasMethodsMarker x = true) ∧
        ∀ x ∈ l1, hasDisqualifier x = false)) ∧
    isConditionalCORSSnippet l1 = isConditionalCORSSnippet l2 := by
  constructor
  · rw [isConditionalCORSSnippet, condGo_eq]
    simp only [Bool.false_or, Bool.and_eq_true, List.all_eq_true, List.any_eq_true,
      Bool.not_eq_true']
    tauto
  · rw [isConditionalCORSSnippet, isConditionalCORSSnippet, condGo_eq, condGo_eq,
      all_perm _ hperm, any_perm _ hperm, any_perm _ hperm]

/-- Origin-guard line used by concrete checks. -/
def corsLineOrigin : String := "if ($http_origin ~* (https://example[.]com))"

/-- Allow-methods line used by concrete checks. -/
def corsLineMethods : String := "add_header Access-Control-Allow-Methods \"GET\";"

/-- Witness for C1 at a concrete two-line snippet and its transposition. -/
theorem corsDetector_witness :
    (isConditionalCORSSnippet [corsLineOrigin, corsLineMethods] = true ↔
      ((∃ x ∈ [corsLineOrigin, corsLineMethods], hasOriginMarker x = true) ∧
        (∃ x ∈ [corsLineOrigin, corsLineMethods], hasMethodsMarker x = true) ∧
        ∀ x ∈ [corsLineOrigin, corsLineMethods], hasDisqualifier x = false)) ∧
    isConditionalCORSSnippet [corsLineOrigin, corsLineMethods] =
      isConditionalCORSSnippet [corsLineMethods, corsLineOrigin] :=
  corsDetector_iff_and_permutation_invariant _ _ (List.Perm.swap corsLineMethods corsLineOrigin [])

/-! ### C3: CORS extraction failure -/

/-- C3. When the detector fires but no line matches the origin pattern, the
call appends exactly the single warning string to the shared result, appends
no middleware, leaves everything else unchanged and returns normally. -/
theorem corsExtractionFailure_single_warning (ctx : Context) (res : ConvResult)
    (snippet : String)
    (hK : ctx.annotations snippetKey = some snippet)
    (hC : isConditionalCORSSnippet (splitLines snippet) = true)
    (hO : extractOriginRegex (splitLines snippet) = none) :
    ConfigurationSnippet ctx res =
      { res with warnings :=
        res.warnings ++ ["failed to parse conditional CORS snippet; skipped"] } := by
  have hNE : ¬ splitLines snippet = [] := by
    intro h
    rw [h] at hC
    exact absurd hC (by decide)
  have hP : parseConditionalCORSSnippet (splitLines snippet) = none := by
    unfold parseConditionalCORSSnippet
    rw [hO]
  unfold ConfigurationSnippet
  rw [hK]
  simp [hNE, hC, hP]

/-- Snippet whose detector fires without an origin-pattern match. -/
def c3Snippet : String := "if ($http_origin)\nadd_header Access-Control-Allow-Methods \"GET\";"

/-- Context carrying the C3 snippet. -/
def c3Ctx : Context := ⟨fun k => if k = snippetKey then some c3Snippet else none, "ing", "default"⟩

/-- Witness for C3 at a concrete snippet. -/
theorem corsExtractionFailure_witness :
    ConfigurationSnippet c3Ctx ⟨[], []⟩ =
      { (⟨[], []⟩ : ConvResult) with warnings :=
        (⟨[], []⟩ : ConvResult).warnings ++ ["failed to parse conditional CORS snippet; skipped"] } :=
  corsExtractionFailure_single_warning c3Ctx ⟨[], []⟩ c3Snippet (by decide) (by decide) (by decide)

/-! ### C4: the default method list -/

/-- C4. When the origin regex is found but the scan collected no allow-methods
value, the parsed configuration and the emitted CORS middleware carry exactly
the default method list GET, POST, PUT, DELETE, OPTIONS. -/
theorem corsDefaultMethods_applied (lines : List String) (origin : String)
    (ctx : Context) (res : ConvResult)
    (hO : extractOriginRegex lines = some origin)
    (hM : (lines.foldl corsScanLine ⟨origin, [], [], none, 0⟩).allowMethods = []) :
    ∃ cfg, parseConditionalCORSSnippet lines = some cfg ∧
      cfg.allowMethods = defaultMethods ∧
      (emitCORSMiddleware ctx cfg res).middlewares =
        res.middlewares ++ [newHeadersMiddleware ctx "cors" (corsHeaders cfg)] ∧
      (corsHeaders cfg).accessControlAllowMethods = defaultMethods := by
  refine ⟨{ lines.foldl corsScanLine ⟨origin, [], [], none, 0⟩ with allowMethods := defaultMethods },
    ?_, rfl, ?_, rfl⟩
  · unfold parseConditionalCORSSnippet
    rw [hO]
    simp [hM]
  · rw [emitCORS_shape]

/-- Context with no annotations, used where only naming matters. -/
def exCtx : Context := ⟨fun _ => none, "ing", "default"⟩

/-- Snippet lines whose allow-methods line carries no quoted value. -/
def c4Lines : List String :=
  ["if ($http_origin ~* (https://example[.]com))",
   "add_header Access-Control-Allow-Methods GET;"]

/-- Witness for C4 at a concrete snippet. -/
theorem corsDefaultMethods_witness :
    ∃ cfg, parseConditionalCORSSnippet c4Lines = some cfg ∧
      cfg.allowMethods = defaultMethods ∧
      (emitCORSMiddleware exCtx cfg ⟨[], []⟩).middlewares =
        (⟨[], []⟩ : ConvResult).middlewares ++ [newHeadersMiddleware exCtx "cors" (corsHeaders cfg)] ∧
      (corsHeaders cfg).accessControlAllowMethods = defaultMethods :=
  corsDefaultMethods_applied c4Lines "https://example[.]com" exCtx ⟨[], []⟩ (by decide) (by decide)

/-! ### C10: non-empty methods at emission and the partial-parse warning -/

/-- C10. Every successfully parsed configuration reaches emission with a
non-empty method list, so the partial-parse warning is appended exactly when
the allow-headers list is empty, and the emitted CORS middleware always has a
non-empty method list. -/
theorem corsEmission_methods_nonempty_partial_warning (lines : List String) (cfg : corsConfig)
    (ctx : Context) (res : ConvResult)
    (hP : parseConditionalCORSSnippet lines = some cfg) :
    cfg.allowMethods ≠ [] ∧
    (emitCORSMiddleware ctx cfg res).warnings =
      res.warnings ++ (if cfg.allowHeaders = [] then [partialMsg, convertedMsg] else [convertedMsg]) ∧
    ∃ m, (emitCORSMiddleware ctx cfg res).middlewares = res.middlewares ++ [m] ∧
      m.headers.accessControlAllowMethods ≠ [] := by
  have hMne : cfg.allowMethods ≠ [] := by
    simp only [parseConditionalCORSSnippet] at hP
    cases hO : extractOriginRegex lines with
    | none => rw [hO] at hP; exact absurd hP (by simp)
    | some origin =>
      rw [hO] at hP
      by_cases hM : (lines.foldl corsScanLine ⟨origin, [], [], none, 0⟩).allowMethods = []
      · simp only [hM, if_true, Option.some.injEq] at hP
        rw [← hP]
        simp [defaultMethods]
      · simp only [hM, if_false, Option.some.injEq] at hP
        rw [← hP]
        exact hM
  refine ⟨hMne, ?_, ⟨newHeadersMiddleware ctx "cors" (corsHeaders cfg), ?_, hMne⟩⟩
  · rw [emitCORS_shape]
    by_cases hA : cfg.allowHeaders = [] <;> simp [corsWarnings, hA, hMne]
  · rw [emitCORS_shape]

/-- Full conditional-CORS snippet with quoted values on every directive. -/
def c10Lines : List String :=
  ["if ($http_origin ~* (https://app[.]io))",
   "add_header \"Access-Control-Allow-Headers\" \"X-A, X-B\";",
   "add_header Access-Control-Allow-Methods \"GET, POST\";",
   "add_header Access-Control-Allow-Credentials \"true\";",
   "add_header Access-Control-Max-Age 600;"]

/-- Configuration parsed from c10Lines. -/
def c10Cfg : corsConfig := ⟨"https://app[.]io", ["X-A", "X-B"], ["GET", "POST"], some true, 600⟩

/-- Witness for C10 at a concrete snippet. -/
theorem corsEmission_witness :
    c10Cfg.allowMethods ≠ [] ∧
    (emitCORSMiddleware exCtx c10Cfg ⟨[], []⟩).warnings =
      (⟨[], []⟩ : ConvResult).warnings ++
        (if c10Cfg.allowHeaders = [] then [partialMsg, convertedMsg] else [convertedMsg]) ∧
    ∃ m, (emitCORSMiddleware exCtx c10Cfg ⟨[], []⟩).middlewares =
        (⟨[], []⟩ : ConvResult).middlewares ++ [m] ∧
      m.headers.accessControlAllowMethods ≠ [] :=
  corsEmission_methods_nonempty_partial_warning c10Lines c10Cfg exCtx ⟨[], []⟩ (by decide)

/-! ### C5: the last-quoted-segment rule -/

theorem breakAtChar_length (q : Char) : ∀ (cs a b : List Char),
    breakAtChar q cs = some (a, b) → b.length < cs.length := by
  intro cs
  induction cs with
  | nil => intro a b h; simp [breakAtChar] at h
  | cons c rest ih =>
    intro a b h
    simp only [breakAtChar] at h
    split at h
    · simp at h
      obtain ⟨-, hb⟩ := h
      subst hb
      simp
    · simp only [Option.map_eq_some'] at h
      obtain ⟨p, hp, he⟩ := h
      have := ih p.1 p.2 (by rw [hp])
      simp only [Prod.mk.injEq] at he
      obtain ⟨-, hb⟩ := he
      subst hb
      simp
      omega

/-- Claim-side reading of the extraction rule for one quote character: every
quoted substring of the line, in order of occurrence; an opening quote without
a matching closing quote contributes nothing. -/
def quotedSegments (q : Char) (cs : List Char) : List String :=
  match h1 : breakAtChar q cs with
  | none => []
  | some (_, r1) =>
    match h2 : breakAtChar q r1 with
    | none => []
    | some (seg, r2) => (⟨seg⟩ : String) :: quotedSegments q r2
termination_by cs.length
decreasing_by
  have l1 := breakAtChar_length q cs _ r1 h1
  have l2 := breakAtChar_length q r1 seg r2 h2
  omega

theorem quotedSegments_eq (q : Char) (cs : List Char) :
    quotedSegments q cs =
      match breakAtChar q cs with
      | none => []
      | some (_, r1) =>
        match breakAtChar q r1 with
        | none => []
        | some (seg, r2) => (⟨seg⟩ : String) :: quotedSegments q r2 := by
  rw [quotedSegments]
  split
  · rename_i h1
    rw [h1]
  · rename_i fst r1 h1
    rw [h1]
    split
    · rename_i h2
      simp [h2]
    · rename_i seg r2 h2
      simp [h2]

theorem collectQuotedAux_spec (q : Char) : ∀ (cs : List Char) (cur : Option (List Char))
    (vals : List String),
    collectQuotedAux q vals cur cs =
      vals ++ (match cur with
        | none => quotedSegments q cs
        | some seg =>
          match breakAtChar q cs with
          | none => []
          | some (a, b) => (⟨seg.reverse ++ a⟩ : String) :: quotedSegments q b) := by
  intro cs
  induction cs with
  | nil =>
    intro cur vals
    cases cur with
    | none => rw [quotedSegments_eq]; simp [collectQuotedAux, breakAtChar]
    | some seg => simp [collectQuotedAux, breakAtChar]
  | cons c rest ih =>
    intro cur vals
    cases cur with
    | none =>
      by_cases hc : c = q
      · subst hc
        simp only [collectQuotedAux, if_pos rfl]
        rw [ih (some []) vals, quotedSegments_eq c (c :: rest)]
        simp only [breakAtChar, if_pos rfl]
        cases hb : breakAtChar c rest with
        | none => simp [hb]
        | some p => cases p with
          | mk a b => simp [hb]
      · simp only [collectQuotedAux, if_neg hc]
        rw [ih none vals, quotedSegments_eq q (c :: rest), quotedSegments_eq q rest]
        simp only [breakAtChar, if_neg hc]
        cases hb : breakAtChar q rest with
        | none => simp [hb]
        | some p => cases p with
          | mk a b => simp [hb]
    | some seg =>
      by_cases hc : c = q
      · subst hc
        simp only [collectQuotedAux, if_pos rfl]
        rw [ih none (vals ++ [(⟨seg.reverse⟩ : String)])]
        simp only [breakAtChar, if_pos rfl]
        simp
      · simp only [collectQuotedAux, if_neg hc]
        rw [ih (some (c :: seg)) vals]
        simp only [breakAtChar, if_neg hc]
        cases hb : breakAtChar q rest with
        | none => simp [hb]
        | some p => cases p with
          | mk a b => simp [hb]

/-- C5. The extracted value of a header line is the last quoted segment: all
double-quoted substrings followed by all single-quoted substrings are
collected, and the last one collected is returned, the empty string when the
line has no quoted substring. The CORS extraction loop applies this rule to
every line carrying a recognized CORS header-directive keyword. -/
theorem extractQuotedHeaderValue_last_segment (line : String) :
    extractQuotedHeaderValue line =
      ((quotedSegments dquoteChar line.toList ++
        quotedSegments squoteChar line.toList).getLast?).getD "" := by
  unfold extractQuotedHeaderValue
  rw [collectQuotedAux_spec, collectQuotedAux_spec]
  simp only [List.nil_append]
  cases h : (quotedSegments dquoteChar line.toList ++
      quotedSegments squoteChar line.toList).getLast? with
  | none => simp [h]
  | some v => simp [h]

/-! ### C7: the max-age integer parse -/

/-- Claim-side decimal value of a digit string, continuing from an
accumulator. -/
def decValFrom (n : Nat) (ds : List Char) : Nat :=
  ds.foldl (fun a c => a * 10 + (c.toNat - 48)) n

/-- Claim-side reading of "parsed as a base-10 integer": an optional sign
followed by at least one digit, whose value lies in the signed 64-bit range;
anything else does not parse. -/
def specInt64Parse (tok : String) : Option Int :=
  match tok.toList with
  | [] => none
  | c :: cs0 =>
    let p := signSplit (c :: cs0)
    if p.2 ≠ [] ∧ p.2.all Char.isDigit = true then
      let v : Int := if p.1 then -(decValFrom 0 p.2 : Int) else (decValFrom 0 p.2 : Int)
      if -9223372036854775808 ≤ v ∧ v ≤ 9223372036854775807 then some v else none
    else none

/-- Claim-side reading of a positively overflowing numeric token: no leading
minus sign, all digits, value at least 2 to the 63rd. -/
abbrev specPosOverflow (tok : String) : Prop :=
  tok.toList ≠ [] ∧ (signSplit tok.toList).1 = false ∧ (signSplit tok.toList).2 ≠ [] ∧
    (signSplit tok.toList).2.all Char.isDigit = true ∧
    9223372036854775808 ≤ decValFrom 0 (signSplit tok.toList).2

/-- Token selected by the claim: the last whitespace-delimited token with a
trailing semicolon stripped. -/
def specMaxAgeToken (line : String) : Option String :=
  ((goFields line).getLast?).map (fun t => goTrimSuffix t ";")

/-- Branch conditions under which the extraction loop recognizes a line as a
max-age directive. -/
abbrev maxAgeBranch (line : String) : Prop :=
  goContains (toLowerStr (trimSpace line)) "access-control-allow-headers" = false ∧
  goContains (toLowerStr (trimSpace line)) "access-control-allow-methods" = false ∧
  goContains (toLowerStr (trimSpace line)) "access-control-allow-credentials" = false ∧
  goContains (toLowerStr (trimSpace line)) "access-control-max-age" = true

/-- Claim C7 as stated: on a recognized max-age line the field becomes the
token's value exactly when the token parses as a base-10 64-bit integer with a
positive value, and stays unchanged whenever the token is non-positive or
unparseable. -/
def c7MaxAgeClaim : Prop :=
  ∀ (cfg : corsConfig) (line : String), maxAgeBranch line →
    (corsScanLine cfg line).maxAge =
      (match specMaxAgeToken line with
       | none => cfg.maxAge
       | some tok =>
         match specInt64Parse tok with
         | none => cfg.maxAge
         | some v => if 0 < v then v else cfg.maxAge)

/-- Counterexample to C7 as stated: on the line
"access-control-max-age 99999999999999999999;" the token does not parse as a
64-bit integer (it overflows), yet the Go code sets MaxAge to the clamped
value 9223372036854775807 because the ParseInt error is discarded. -/
theorem maxAge_parse_counterexample : ¬ c7MaxAgeClaim := by
  intro h
  have h2 := h ⟨"", [], [], none, 0⟩ "access-control-max-age 99999999999999999999;" (by decide)
  revert h2
  decide

theorem decValFrom_le (ds : List Char) : ∀ n : Nat, n ≤ decValFrom n ds := by
  induction ds with
  | nil => intro n; simp [decValFrom]
  | cons c rest ih =>
    intro n
    have h1 : n ≤ n * 10 + (c.toNat - 48) := by omega
    have h2 := ih (n * 10 + (c.toNat - 48))
    simp only [decValFrom, List.foldl_cons] at h2 ⊢
    omega

theorem parseUint_exact (ds : List Char) : ∀ n : Nat, ds.all Char.isDigit = true →
    decValFrom n ds ≤ 18446744073709551615 → parseUintVal n ds = some (decValFrom n ds) := by
  induction ds with
  | nil => intro n _ _; simp [parseUintVal, decValFrom]
  | cons c rest ih =>
    intro n hd hle
    simp only [List.all_cons, Bool.and_eq_true] at hd
    have hfold : decValFrom n (c :: rest) = decValFrom (n * 10 + (c.toNat - 48)) rest := by
      simp [decValFrom]
    have hmono := decValFrom_le rest (n * 10 + (c.toNat - 48))
    have hcut : ¬ 1844674407370955162 ≤ n := by
      intro hc
      rw [hfold] at hle
      omega
    have hn1 : ¬ 18446744073709551615 < n * 10 + (c.toNat - 48) := by
      rw [hfold] at hle
      omega
    simp only [parseUintVal, hd.1, if_true, if_neg hcut, if_neg hn1]
    rw [hfold]
    exact ih (n * 10 + (c.toNat - 48)) hd.2 (hfold ▸ hle)

theorem parseUint_clamp (ds : List Char) : ∀ n : Nat, ds.all Char.isDigit = true → ds ≠ [] →
    18446744073709551615 < decValFrom n ds → parseUintVal n ds = some 18446744073709551615 := by
  induction ds with
  | nil => intro n _ hne _; exact absurd rfl hne
  | cons c rest ih =>
    intro n hd _ hgt
    simp only [List.all_cons, Bool.and_eq_true] at hd
    have hfold : decValFrom n (c :: rest) = decValFrom (n * 10 + (c.toNat - 48)) rest := by
      simp [decValFrom]
    by_cases hcut : 1844674407370955162 ≤ n
    · simp [parseUintVal, hd.1, hcut]
    · by_cases hn1 : 18446744073709551615 < n * 10 + (c.toNat - 48)
      · simp [parseUintVal, hd.1, hcut, hn1]
      · cases rest with
        | nil =>
          rw [hfold] at hgt
          simp only [decValFrom, List.foldl_nil] at hgt
          omega
        | cons c2 rest2 =>
          simp only [parseUintVal, hd.1, if_true, if_neg hcut, if_neg hn1]
          exact ih (n * 10 + (c.toNat - 48)) hd.2 (by simp) (hfold ▸ hgt)

/-- Signed 64-bit clamp of a sign and magnitude, the value strconv.ParseInt
yields for a sign-and-digits token. -/
def int64Clamped (neg : Bool) (n : Nat) : Int :=
  if neg = false ∧ 9223372036854775808 ≤ n then 9223372036854775807
  else if neg = true ∧ 9223372036854775808 < n then -9223372036854775808
  else if neg then -(n : Int) else (n : Int)

theorem goParseInt64_eq_clamped (tok : String) (neg : Bool) (ds : List Char)
    (hsp : signSplit tok.toList = (neg, ds)) (htne : tok.toList ≠ [])
    (hne : ds ≠ []) (hdig : ds.all Char.isDigit = true) :
    goParseInt64 tok = int64Clamped neg (decValFrom 0 ds) := by
  cases ht : tok.toList with
  | nil => exact absurd ht htne
  | cons c cs0 =>
    rw [ht] at hsp
    simp only [goParseInt64, ht, hsp]
    cases ds with
    | nil => exact absurd rfl hne
    | cons d ds2 =>
      by_cases hle : decValFrom 0 (d :: ds2) ≤ 18446744073709551615
      · rw [parseUint_exact (d :: ds2) 0 hdig hle]
        rfl
      · push_neg at hle
        rw [parseUint_clamp (d :: ds2) 0 hdig (by simp) hle]
        unfold int64Clamped
        cases neg with
        | false =>
          have hd2 : (9223372036854775808 : Nat) ≤ decValFrom 0 (d :: ds2) := by omega
          simp [hd2]
        | true =>
          have hd2 : (9223372036854775808 : Nat) < decValFrom 0 (d :: ds2) := by omega
          simp [hd2]

/-- C7 amended. On a recognized max-age line the field is set to the value of
Go ParseInt on the last whitespace-delimited token (semicolon stripped) of the
trimmed line when that value is positive and stays unchanged otherwise; for
tokens that are an optional sign followed by digits, that value is the token's
decimal value when it lies in the signed 64-bit range, while an unsigned
all-digit token whose value reaches 2 to the 63rd is clamped to
9223372036854775807 (which is positive and therefore sets the field); other
tokens parse to a non-positive value and leave the field at its zero value. -/
theorem maxAge_parse_amended :
    (∀ (cfg : corsConfig) (line : String), maxAgeBranch line →
      (corsScanLine cfg line).maxAge =
        if 0 < extractInt (trimSpace line) then extractInt (trimSpace line) else cfg.maxAge) ∧
    (∀ (tok : String) (v : Int), specInt64Parse tok = some v → goParseInt64 tok = v) ∧
    (∀ tok : String, specPosOverflow tok → goParseInt64 tok = 9223372036854775807) := by
  refine ⟨?_, ?_, ?_⟩
  · intro cfg line hb
    obtain ⟨h1, h2, h3, h4⟩ := hb
    simp only [corsScanLine, h1, h2, h3, h4]
    by_cases hlt : 0 < extractInt (trimSpace line) <;> simp [hlt]
  · intro tok v h
    simp only [specInt64Parse, String.toList] at h
    cases ht : tok.data with
    | nil =>
      simp only [ht] at h
      exact absurd h (by simp)
    | cons c cs0 =>
      simp only [ht] at h
      rcases hsp : signSplit (c :: cs0) with ⟨neg, ds⟩
      simp only [hsp, ne_eq] at h
      by_cases hcond : ¬ds = [] ∧ ds.all Char.isDigit = true
      · rw [if_pos hcond] at h
        by_cases hrange :
            -9223372036854775808 ≤ (if neg then -(decValFrom 0 ds : Int) else (decValFrom 0 ds : Int)) ∧
            (if neg then -(decValFrom 0 ds : Int) else (decValFrom 0 ds : Int)) ≤ 9223372036854775807
        · rw [if_pos hrange] at h
          have hv := Option.some.inj h
          rw [goParseInt64_eq_clamped tok neg ds
            (by rw [show tok.toList = tok.data from rfl, ht, hsp])
            (by rw [show tok.toList = tok.data from rfl, ht]; simp) hcond.1 hcond.2]
          rw [← hv]
          cases neg with
          | false =>
            simp only [Bool.false_eq_true, if_false] at hrange ⊢
            have hlt : ¬ (9223372036854775808 : Nat) ≤ decValFrom 0 ds := by
              have := hrange.2
              omega
            simp [int64Clamped, hlt]
          | true =>
            simp only [if_true] at hrange ⊢
            have hlt : ¬ (9223372036854775808 : Nat) < decValFrom 0 ds := by
              have := hrange.1
              omega
            simp [int64Clamped, hlt]
        · rw [if_neg hrange] at h
          exact absurd h (by simp)
      · rw [if_neg hcond] at h
        exact absurd h (by simp)
  · intro tok hov
    obtain ⟨htne, hneg, hne, hdig, hbig⟩ := hov
    rw [goParseInt64_eq_clamped tok false (signSplit tok.toList).2 (by rw [← hneg]) htne hne hdig]
    unfold int64Clamped
    rw [if_pos ⟨rfl, hbig⟩]

/-- Line with an in-range positive max-age token. -/
def c7Line : String := "access-control-max-age 600;"

/-- Witness for the amended C7 at concrete inputs: an in-range positive token
sets the exact value, and an overflowing unsigned token clamps. -/
theorem maxAge_parse_witness :
    (corsScanLine ⟨"", [], [], none, 0⟩ c7Line).maxAge =
      (if 0 < extractInt (trimSpace c7Line) then extractInt (trimSpace c7Line)
       else (⟨"", [], [], none, 0⟩ : corsConfig).maxAge) ∧
    goParseInt64 "600" = 600 ∧
    goParseInt64 "99999999999999999999" = 9223372036854775807 :=
  ⟨maxAge_parse_amended.1 ⟨"", [], [], none, 0⟩ c7Line (by decide),
   maxAge_parse_amended.2.1 "600" 600 (by decide),
   maxAge_parse_amended.2.2 "99999999999999999999" (by decide)⟩

/-! ### C6: malformed header directives in the generic pass -/

/-- Claim-side malformedness of a quoted response-header line: fewer than two
quote characters (no first quote, or no second quote after it), or no colon
between the first and the last quote. -/
def shapeAMalformed (s : String) : Bool :=
  match breakAtChar dquoteChar s.toList with
  | none => true
  | some (_, afterFirst) =>
    match breakAtChar dquoteChar afterFirst.reverse with
    | none => true
    | some (_, revInterior) =>
      match breakAtChar ':' revInterior.reverse with
      | none => true
      | some _ => false

theorem parseResponseHeader_none_of_shapeA (line : String) (htr : trimSpace line = line)
    (hpre : goHasPre (goTrimSuffix line ";") "more_set_headers" = true)
    (hmal : shapeAMalformed (goTrimSuffix line ";") = true) :
    parseResponseHeader line = none := by
  unfold parseResponseHeader
  rw [htr, if_pos hpre]
  unfold shapeAMalformed at hmal
  cases hb1 : breakAtChar dquoteChar (goTrimSuffix line ";").toList with
  | none => simp [hb1]
  | some p1 =>
    cases p1 with
    | mk a1 b1 =>
      simp only [hb1] at hmal
      cases hb2 : breakAtChar dquoteChar b1.reverse with
      | none => simp [hb1, hb2]
      | some p2 =>
        cases p2 with
        | mk a2 b2 =>
          simp only [hb2] at hmal
          cases hb3 : breakAtChar ':' b2.reverse with
          | none => simp [hb1, hb2, hb3]
          | some p3 =>
            simp only [hb3] at hmal
            exact absurd hmal (by simp)

theorem parseProxySetHeader_short (line : String)
    (hlen : (goFields (goTrimSuffix line ";")).length < 3) :
    parseProxySetHeader line = ("", "") := by
  unfold parseProxySetHeader
  rcases hf : goFields (goTrimSuffix line ";") with _ | ⟨a, _ | ⟨b, _ | ⟨c, t⟩⟩⟩
  · simp [hf]
  · simp [hf]
  · simp [hf]
  · rw [hf] at hlen
    simp at hlen
    omega

theorem startsWith_take (p : List Char) : ∀ (xs : List Char) (n : Nat),
    startsWithList (xs.take n) p = true → startsWithList xs p = true := by
  induction p with
  | nil => intro xs n _; cases xs <;> rfl
  | cons pc ps ih =>
    intro xs n h
    cases xs with
    | nil =>
      rw [List.take_nil] at h
      simp [startsWithList] at h
    | cons x xs2 =>
      cases n with
      | zero => simp [startsWithList] at h
      | succ n2 =>
        simp only [List.take_succ_cons] at h
        simp only [startsWithList] at h ⊢
        by_cases hx : x = pc
        · rw [if_pos hx] at h ⊢
          exact ih xs2 n2 h
        · rw [if_neg hx] at h
          exact absurd h (by simp)

theorem startsWith_map (f : Char → Char) (p : List Char) : ∀ xs : List Char,
    startsWithList xs p = true → startsWithList (xs.map f) (p.map f) = true := by
  induction p with
  | nil =>
    intro xs _
    cases hm : xs.map f <;> rfl
  | cons pc ps ih =>
    intro xs h
    cases xs with
    | nil => simp [startsWithList] at h
    | cons x xs2 =>
      simp only [startsWithList] at h
      by_cases hx : x = pc
      · subst hx
        simp only [List.map_cons, startsWithList, if_pos rfl]
        rw [if_pos rfl] at h
        exact ih xs2 h
      · rw [if_neg hx] at h
        exact absurd h (by simp)

theorem fieldsAux_first : ∀ (cs acc : List Char), acc ≠ [] →
    ∃ t, fieldsAux acc cs =
      (⟨acc.reverse ++ cs.takeWhile (fun c => !isGoSpace c)⟩ : String) :: t := by
  intro cs
  induction cs with
  | nil =>
    intro acc hacc
    have hne : acc.isEmpty = false := by
      cases acc with
      | nil => exact absurd rfl hacc
      | cons a rest => rfl
    refine ⟨[], ?_⟩
    simp [fieldsAux, hne]
  | cons c rest ih =>
    intro acc hacc
    have hne : acc.isEmpty = false := by
      cases acc with
      | nil => exact absurd rfl hacc
      | cons a r2 => rfl
    by_cases hc : isGoSpace c = true
    · refine ⟨fieldsAux [] rest, ?_⟩
      simp [fieldsAux, hc, hne, List.takeWhile_cons]
    · obtain ⟨t, ht⟩ := ih (c :: acc) (by simp)
      refine ⟨t, ?_⟩
      have hc2 : isGoSpace c = false := by
        cases hgs : isGoSpace c with
        | true => exact absurd hgs hc
        | false => rfl
      simp only [fieldsAux, hc2, if_false, Bool.false_eq_true]
      rw [ht]
      simp [List.takeWhile_cons, hc2]

theorem directive_head (s : String) (c : Char) (rest : List Char)
    (hdata : (toLowerStr s).toList = c :: rest) (hc : isGoSpace c = false) :
    ∃ w, directive (toLowerStr s) = (⟨c :: w⟩ : String) := by
  unfold directive goFields
  rw [hdata]
  obtain ⟨t, ht⟩ := fieldsAux_first rest [c] (by simp)
  rw [show fieldsAux [] (c :: rest) = fieldsAux [c] rest from by simp [fieldsAux, hc]]
  rw [ht]
  exact ⟨rest.takeWhile (fun x => !isGoSpace x), by simp⟩

theorem not_more_when_add (line : String)
    (hd : directive (toLowerStr line) = "add_header") :
    goHasPre (goTrimSuffix line ";") "more_set_headers" = false := by
  by_contra hcon
  rw [Bool.not_eq_false] at hcon
  have h1 : startsWithList line.toList "more_set_headers".toList = true := by
    unfold goHasPre goTrimSuffix at hcon
    split at hcon
    · exact startsWith_take _ line.toList _ hcon
    · exact hcon
  have h2 : startsWithList (line.toList.map lowerChar)
      ("more_set_headers".toList.map lowerChar) = true :=
    startsWith_map lowerChar _ line.toList h1
  have h3 : "more_set_headers".toList.map lowerChar = "more_set_headers".toList := by decide
  rw [h3] at h2
  have hM : "more_set_headers".toList = 'm' :: "ore_set_headers".toList := by decide
  rw [hM] at h2
  cases hX : line.toList.map lowerChar with
  | nil =>
    rw [hX] at h2
    simp [startsWithList] at h2
  | cons x rest =>
    rw [hX] at h2
    simp only [startsWithList] at h2
    by_cases hxm : x = 'm'
    · obtain ⟨w, hw⟩ := directive_head line x rest
        (by rw [show (toLowerStr line).toList = line.toList.map lowerChar from rfl, hX])
        (by rw [hxm]; decide)
      rw [hw] at hd
      have hdl := congrArg String.toList hd
      rw [show ((⟨x :: w⟩ : String)).toList = x :: w from rfl,
        show "add_header".toList = 'a' :: "dd_header".toList from by decide] at hdl
      have hxa : x = 'a' := by injection hdl
      rw [hxm] at hxa
      exact absurd hxa (by decide)
    · rw [if_neg hxm] at h2
      exact absurd h2 (by simp)

/-- Counterexample to C6 as stated: the line "proxy_set_header X-Custom" is a
proxy_set_header directive with fewer than three fields, yet the generic pass
adds no request-header entry and records no warning at all — the result is
completely unchanged, while the claim demands a warning. -/
theorem malformedHeaderDirective_counterexample :
    (goFields (goTrimSuffix "proxy_set_header X-Custom" ";")).length < 3 ∧
    directive (toLowerStr (trimSpace "proxy_set_header X-Custom")) = "proxy_set_header" ∧
    convertGenericSnippet exCtx ["proxy_set_header X-Custom"] ⟨[], []⟩ = ⟨[], []⟩ := by
  refine ⟨by decide, by decide, ?_⟩
  decide

/-- C6 amended. On a trimmed snippet line: a more_set_headers line with fewer
than two quote characters or no colon between its quotes, and an add_header
line with fewer than three fields, add no header-map entry and record the
warning naming the line; a proxy_set_header line with fewer than three fields
adds no entry and records no warning; in all cases the fold over the remaining
lines continues from the updated accumulator. -/
theorem malformedHeaderDirective_amended (acc : GenAcc) (line : String)
    (htr : trimSpace line = line) :
    (directive (toLowerStr line) = "more_set_headers" →
      goHasPre (goTrimSuffix line ";") "more_set_headers" = true →
      shapeAMalformed (goTrimSuffix line ";") = true →
      genericStep acc line =
        { acc with warns := acc.warns ++ ["failed to parse header directive: " ++ line] }) ∧
    (directive (toLowerStr line) = "add_header" →
      (goFields (goTrimSuffix line ";")).length < 3 →
      genericStep acc line =
        { acc with warns := acc.warns ++ ["failed to parse header directive: " ++ line] }) ∧
    (directive (toLowerStr line) = "proxy_set_header" →
      (goFields (goTrimSuffix line ";")).length < 3 →
      genericStep acc line = acc) ∧
    (∀ (st : GenAcc) (rest : List String),
      List.foldl genericStep st (line :: rest) = List.foldl genericStep (genericStep st line) rest) := by
  refine ⟨?_, ?_, ?_, fun st rest => rfl⟩
  · intro h0 hpre hmal
    have hne : ¬ line = "" := by
      intro he
      rw [he] at h0
      exact absurd h0 (by decide)
    have hpr := parseResponseHeader_none_of_shapeA line htr hpre hmal
    simp only [genericStep, htr, if_neg hne, h0]
    simp [hpr]
  · intro h0 hlen
    have hne : ¬ line = "" := by
      intro he
      rw [he] at h0
      exact absurd h0 (by decide)
    have hmore := not_more_when_add line h0
    have hpr : parseResponseHeader line = none := by
      unfold parseResponseHeader
      rw [htr]
      rw [if_neg (by rw [hmore]; simp)]
      by_cases hadd : goHasPre (goTrimSuffix line ";") "add_header" = true
      · rw [if_pos hadd]
        rcases hf : goFields (goTrimSuffix line ";") with _ | ⟨a, _ | ⟨b, _ | ⟨c, t⟩⟩⟩
        · simp [hf]
        · simp [hf]
        · simp [hf]
        · rw [hf] at hlen
          simp at hlen
          omega
      · rw [if_neg hadd]
    simp only [genericStep, htr, if_neg hne, h0]
    simp [hpr]
  · intro h0 hlen
    have hne : ¬ line = "" := by
      intro he
      rw [he] at h0
      exact absurd h0 (by decide)
    have hpsh := parseProxySetHeader_short line hlen
    simp only [genericStep, htr, if_neg hne, h0]
    simp [hpsh, show goContains "" "$" = false from rfl]

/-- Witness for the amended C6 at three concrete malformed lines. -/
theorem malformedHeaderDirective_witness :
    (genericStep ⟨[], [], []⟩ "more_set_headers \"X-NoColon\";" =
      { (⟨[], [], []⟩ : GenAcc) with warns :=
        (⟨[], [], []⟩ : GenAcc).warns ++
          ["failed to parse header directive: " ++ "more_set_headers \"X-NoColon\";"] }) ∧
    (genericStep ⟨[], [], []⟩ "add_header X-Only" =
      { (⟨[], [], []⟩ : GenAcc) with warns :=
        (⟨[], [], []⟩ : GenAcc).warns ++
          ["failed to parse header directive: " ++ "add_header X-Only"] }) ∧
    genericStep ⟨[], [], []⟩ "proxy_set_header X-Custom" = ⟨[], [], []⟩ :=
  ⟨(malformedHeaderDirective_amended ⟨[], [], []⟩ "more_set_headers \"X-NoColon\";"
      (by decide)).1 (by decide) (by decide) (by decide),
   (malformedHeaderDirective_amended ⟨[], [], []⟩ "add_header X-Only"
      (by decide)).2.1 (by decide) (by decide),
   (malformedHeaderDirective_amended ⟨[], [], []⟩ "proxy_set_header X-Custom"
      (by decide)).2.2.1 (by decide) (by decide)⟩
